import Mathlib

/-!
Verification development for the fizzy-bubbles-tracker utility module
(`src/util.ts`) and the bond page handlers (`pages/bond.tsx`).

The debounce wrapper from `src/util.ts`:

  export function debounce(fn, ms = 300) {
    let timeoutId;
    return function (...args) {
      clearTimeout(timeoutId);
      timeoutId = setTimeout(() => fn.apply(this, args), ms);
    };
  }

is embedded as a timed trace semantics over the single-threaded cooperative
scheduler: the closure state is the one `timeoutId` slot, modelled as at most
one pending (deadline, args) pair, plus the log of invocations of the wrapped
`fn`.  A pending timer whose deadline has been reached runs before the next
external call is processed; at the end of a trace, remaining time passes and a
still-pending timer fires.
-/

namespace FizzyBubbles

/-- Closure state of a function returned by `debounce` (`src/util.ts` lines
5–11): `pending` is the live `timeoutId`, recorded as its deadline together
with the captured `args`; `fired` is the ordered log of invocations of the
wrapped `fn`. -/
structure DebounceState (α : Type) where
  pending : Option (Nat × α)
  fired : List α
deriving Repr, DecidableEq

/-- Time passes up to instant `t`: a pending timer whose deadline `d`
satisfies `d ≤ t` fires (the scheduler runs the `setTimeout` callback,
invoking `fn` with the captured args) before anything queued at `t` runs. -/
def fireDue {α : Type} (s : DebounceState α) (t : Nat) : DebounceState α :=
  match s.pending with
  | some (d, a) => if d ≤ t then { pending := none, fired := s.fired ++ [a] } else s
  | none => s

/-- Body of the function returned by `debounce`: `clearTimeout(timeoutId)`
then `timeoutId = setTimeout(() => fn.apply(this, args), ms)` — the old
pending timer (if any) is discarded and replaced by a fresh one with deadline
`t + ms` capturing the new `args`. -/
def debounceBody {α : Type} (ms : Nat) (s : DebounceState α) (t : Nat) (args : α) :
    DebounceState α :=
  { s with pending := some (t + ms, args) }

/-- One external call event at time `t` with arguments `args`: due timers run
first, then the debounced function body. -/
def stepCall {α : Type} (ms : Nat) (s : DebounceState α) (c : Nat × α) : DebounceState α :=
  debounceBody ms (fireDue s c.1) c.1 c.2

/-- Run a trace of timed calls against a fresh `debounce` closure. -/
def runCalls {α : Type} (ms : Nat) (calls : List (Nat × α)) : DebounceState α :=
  calls.foldl (stepCall ms) ⟨none, []⟩

/-- After the last event, remaining time passes: a still-pending timer
fires. -/
def finalFire {α : Type} (s : DebounceState α) : List α :=
  match s.pending with
  | some (_, a) => s.fired ++ [a]
  | none => s.fired

/-- All invocations the wrapped `fn` ever receives for a given call trace. -/
def debounceRun {α : Type} (ms : Nat) (calls : List (Nat × α)) : List α :=
  finalFire (runCalls ms calls)

/-- Variant starting from an arbitrary closure state, for induction. -/
def debounceRunFrom {α : Type} (ms : Nat) (s : DebounceState α) (calls : List (Nat × α)) :
    List α :=
  finalFire (calls.foldl (stepCall ms) s)

/-- Two consecutive calls in causal order whose gap is strictly below the
window: the second arrives before the first one's timer deadline. -/
def closeSucc {α : Type} (ms : Nat) (a b : Nat × α) : Prop :=
  a.1 ≤ b.1 ∧ b.1 < a.1 + ms

/-- Two consecutive calls whose gap is at least the window: the first one's
timer deadline has been reached when the second arrives. -/
def gapSucc {α : Type} (ms : Nat) (a b : Nat × α) : Prop :=
  a.1 + ms ≤ b.1

instance {α : Type} (ms : Nat) : DecidableRel (closeSucc (α := α) ms) :=
  fun a b => inferInstanceAs (Decidable (a.1 ≤ b.1 ∧ b.1 < a.1 + ms))

instance {α : Type} (ms : Nat) : DecidableRel (gapSucc (α := α) ms) :=
  fun a b => inferInstanceAs (Decidable (a.1 + ms ≤ b.1))

/-- Core coalescing lemma: starting with a pending timer set by a call at
`t0`, a run of further calls each arriving before the previous deadline keeps
exactly that one timer alive, never fires mid-run, and ends with the last
call's args pending. -/
theorem debounceRunFrom_close {α : Type} (ms : Nat) :
    ∀ (calls : List (Nat × α)) (t0 : Nat) (a0 : α) (F : List α),
      List.Chain' (closeSucc ms) ((t0, a0) :: calls) →
      debounceRunFrom ms ⟨some (t0 + ms, a0), F⟩ calls =
        F ++ [(((t0, a0) :: calls).getLast (by simp)).2] := by
  intro calls
  induction calls with
  | nil =>
    intro t0 a0 F _
    simp [debounceRunFrom, finalFire]
  | cons c tl ih =>
    intro t0 a0 F hchain
    obtain ⟨t1, a1⟩ := c
    have hrel : closeSucc ms (t0, a0) (t1, a1) := List.chain'_cons.mp hchain |>.1
    have htl : List.Chain' (closeSucc ms) ((t1, a1) :: tl) := List.chain'_cons.mp hchain |>.2
    have hnotdue : ¬ (t0 + ms ≤ t1) := by
      have := hrel.2
      omega
    have hstep : stepCall ms ⟨some (t0 + ms, a0), F⟩ (t1, a1) =
        ⟨some (t1 + ms, a1), F⟩ := by
      simp [stepCall, fireDue, debounceBody, hnotdue]
    have hlast : (((t0, a0) :: (t1, a1) :: tl).getLast (by simp)) =
        (((t1, a1) :: tl).getLast (by simp)) := by
      exact List.getLast_cons (by simp)
    calc debounceRunFrom ms ⟨some (t0 + ms, a0), F⟩ ((t1, a1) :: tl)
        = debounceRunFrom ms ⟨some (t1 + ms, a1), F⟩ tl := by
          simp [debounceRunFrom, List.foldl_cons, hstep]
      _ = F ++ [(((t1, a1) :: tl).getLast (by simp)).2] := ih t1 a1 F htl
      _ = F ++ [(((t0, a0) :: (t1, a1) :: tl).getLast (by simp)).2] := by rw [hlast]

/-- Core spreading lemma: starting with a pending timer set by a call at
`t0`, a run of further calls each arriving at or after the previous deadline
fires every pending timer in order: every call's args reach `fn`. -/
theorem debounceRunFrom_gap {α : Type} (ms : Nat) :
    ∀ (calls : List (Nat × α)) (t0 : Nat) (a0 : α) (F : List α),
      List.Chain' (gapSucc ms) ((t0, a0) :: calls) →
      debounceRunFrom ms ⟨some (t0 + ms, a0), F⟩ calls =
        F ++ a0 :: calls.map (fun c => c.2) := by
  intro calls
  induction calls with
  | nil =>
    intro t0 a0 F _
    simp [debounceRunFrom, finalFire]
  | cons c tl ih =>
    intro t0 a0 F hchain
    obtain ⟨t1, a1⟩ := c
    have hrel : gapSucc ms (t0, a0) (t1, a1) := List.chain'_cons.mp hchain |>.1
    have htl : List.Chain' (gapSucc ms) ((t1, a1) :: tl) := List.chain'_cons.mp hchain |>.2
    have hdue : t0 + ms ≤ t1 := hrel
    have hstep : stepCall ms ⟨some (t0 + ms, a0), F⟩ (t1, a1) =
        ⟨some (t1 + ms, a1), F ++ [a0]⟩ := by
      simp [stepCall, fireDue, debounceBody, hdue]
    calc debounceRunFrom ms ⟨some (t0 + ms, a0), F⟩ ((t1, a1) :: tl)
        = debounceRunFrom ms ⟨some (t1 + ms, a1), F ++ [a0]⟩ tl := by
          simp [debounceRunFrom, List.foldl_cons, hstep]
      _ = (F ++ [a0]) ++ a1 :: tl.map (fun c => c.2) := ih t1 a1 (F ++ [a0]) htl
      _ = F ++ a0 :: ((t1, a1) :: tl).map (fun c => c.2) := by simp

/-- C1: For every key `k` and every sequence of `scheduleWrite(k, patch)`
calls whose inter-call gaps are all strictly less than the window `W = ms`,
exactly one underlying `write(k, ·)` call occurs, and it carries the last
patch of the sequence.  `scheduleWrite` is `debounce` applied to the
underlying two-argument write, so a call's args are the pair (key, patch). -/
theorem debounce_close_calls_single_write {K P : Type} (ms : Nat) (k : K)
    (calls : List (Nat × K × P)) (hne : calls ≠ [])
    (hchain : List.Chain' (closeSucc ms) calls)
    (hkey : ∀ c ∈ calls, c.2.1 = k) :
    debounceRun ms calls = [(k, (calls.getLast hne).2.2)] := by
  match calls, hne with
  | (t0, a0) :: tl, _ =>
    have hinit : stepCall ms ⟨none, []⟩ (t0, a0) = ⟨some (t0 + ms, a0), []⟩ := by
      simp [stepCall, fireDue, debounceBody]
    have hrun : debounceRun ms ((t0, a0) :: tl) =
        debounceRunFrom ms ⟨some (t0 + ms, a0), []⟩ tl := by
      simp [debounceRun, debounceRunFrom, runCalls, List.foldl_cons, hinit]
    rw [hrun, debounceRunFrom_close ms tl t0 a0 [] hchain]
    have hmem : ((t0, a0) :: tl).getLast (by simp) ∈ (t0, a0) :: tl :=
      List.getLast_mem (by simp)
    have hk : (((t0, a0) :: tl).getLast (by simp)).2.1 = k :=
      hkey _ hmem
    have hpair : (((t0, a0) :: tl).getLast (by simp)).2 =
        (k, (((t0, a0) :: tl).getLast (by simp)).2.2) := by
      rw [← hk]
    rw [List.nil_append, hpair]

/-- C1 witness: the spec scenario — `scheduleWrite("a", 1)` then
`scheduleWrite("a", 2)` 50ms later with window 250ms yields exactly one
write, with arguments `("a", 2)`. -/
theorem debounce_close_calls_single_write_witness :
    debounceRun 250 [(0, (("a" : String), (1 : Nat))), (50, ("a", 2))] = [("a", 2)] := by
  have h := debounce_close_calls_single_write 250 "a"
    [(0, (("a" : String), (1 : Nat))), (50, ("a", 2))]
    (by simp) (by simp [List.chain'_cons, closeSucc]) (by decide)
  simpa using h

/-- C4: for every key and every sequence of `scheduleWrite(k, patch)` calls
in which every inter-call gap is at least the window `W = ms`, the underlying
`write` is invoked exactly once per call, in order, with that call's patch:
no coalescing occurs across gaps ≥ W. -/
theorem debounce_spread_calls_write_each {K P : Type} (ms : Nat) (k : K)
    (calls : List (Nat × K × P))
    (hchain : List.Chain' (gapSucc ms) calls)
    (_ : ∀ c ∈ calls, c.2.1 = k) :
    debounceRun ms calls = calls.map (fun c => c.2) := by
  match calls with
  | [] => rfl
  | (t0, a0) :: tl =>
    have hinit : stepCall ms ⟨none, []⟩ (t0, a0) = ⟨some (t0 + ms, a0), []⟩ := by
      simp [stepCall, fireDue, debounceBody]
    have hrun : debounceRun ms ((t0, a0) :: tl) =
        debounceRunFrom ms ⟨some (t0 + ms, a0), []⟩ tl := by
      simp [debounceRun, debounceRunFrom, runCalls, List.foldl_cons, hinit]
    rw [hrun, debounceRunFrom_gap ms tl t0 a0 [] hchain]
    simp

/-- C4 witness: three calls on key `"a"`, gaps 250 (exactly the window) and
350, all three patches written. -/
theorem debounce_spread_calls_write_each_witness :
    debounceRun 250 [(0, (("a" : String), (1 : Nat))), (250, ("a", 2)), (600, ("a", 3))] =
      [("a", 1), ("a", 2), ("a", 3)] := by
  have h := debounce_spread_calls_write_each 250 "a"
    [(0, (("a" : String), (1 : Nat))), (250, ("a", 2)), (600, ("a", 3))]
    (by simp [List.chain'_cons, gapSucc]) (by decide)
  simpa using h

/-- C2 counterexample: `debounce` keeps a single shared `timeoutId` for all
keys, so a call for key 1 arriving 50ms after a call for key 2 (window 250ms)
cancels key 2's pending timer: only key 1's write ever occurs, and key 2's
patch never reaches the underlying write function. -/
theorem debounce_cross_key_cancel_cex :
    debounceRun 250 [(0, ((2 : Nat), (20 : Nat))), (50, (1, 10))] = [(1, 10)] ∧
      ((2 : Nat), (20 : Nat)) ∉ debounceRun 250 [(0, ((2 : Nat), (20 : Nat))), (50, (1, 10))] := by
  constructor
  · rfl
  · decide

/-- C2 amended: the timers are NOT independent per key.  The debounce closure
has one shared timer, so a `scheduleWrite` call for `k1` arriving while a
write for `k2 ≠ k1` is pending cancels `k2`'s pending write outright: only
the later call's (key, patch) is ever flushed, and the earlier key's write
never reaches the underlying write function. -/
theorem debounce_shared_timer_cross_key {K P : Type} (ms t0 t1 : Nat)
    (k1 k2 : K) (p1 p2 : P) (_h0 : t0 ≤ t1) (h1 : t1 < t0 + ms) :
    debounceRun ms [(t0, (k2, p2)), (t1, (k1, p1))] = [(k1, p1)] := by
  have hnotdue : ¬ (t0 + ms ≤ t1) := by omega
  simp [debounceRun, runCalls, stepCall, fireDue, debounceBody, finalFire, hnotdue]

/-- C2 amended witness: window 300ms, key 6 at t=0, key 5 at t=100: only
key 5's patch is written. -/
theorem debounce_shared_timer_cross_key_witness :
    debounceRun 300 [(0, ((6 : Nat), (60 : Nat))), (100, (5, 50))] = [(5, 50)] :=
  debounce_shared_timer_cross_key 300 0 100 5 6 50 60 (by decide) (by decide)

/-- Number of outstanding pending writes for key `k` in a debounce closure
state whose args are (key, patch) pairs. -/
def pendingCountFor {K P : Type} [DecidableEq K] (s : DebounceState (K × P)) (k : K) : Nat :=
  match s.pending with
  | some (_, (q, _)) => if q = k then 1 else 0
  | none => 0

theorem pendingCountFor_le_one {K P : Type} [DecidableEq K]
    (s : DebounceState (K × P)) (k : K) : pendingCountFor s k ≤ 1 := by
  unfold pendingCountFor
  rcases s.pending with _ | ⟨d, q, p⟩
  · exact Nat.zero_le 1
  · by_cases h : q = k <;> simp [h]

/-- C5: the debounce closure has a single `timeoutId` slot, so at most one
pending write per record identity (indeed, at most one overall) is
outstanding in every reachable state; and a `scheduleWrite` call for the same
identity arriving before the window elapses replaces the stored pending patch
and resets the timer, firing nothing and enqueuing no second write. -/
theorem debounce_single_pending_invariant {K P : Type} [DecidableEq K] (ms : Nat) :
    (∀ (calls : List (Nat × K × P)) (k : K),
        pendingCountFor (runCalls ms calls) k ≤ 1) ∧
    (∀ (s : DebounceState (K × P)) (t d : Nat) (k : K) (p q : P),
        s.pending = some (d, (k, p)) → t < d →
        stepCall ms s (t, (k, q)) = ⟨some (t + ms, (k, q)), s.fired⟩) := by
  constructor
  · intro calls k
    exact pendingCountFor_le_one (runCalls ms calls) k
  · intro s t d k p q hpend ht
    have hnotdue : ¬ (d ≤ t) := by omega
    cases s with
    | mk pending fired =>
      simp only [DebounceState.mk.injEq] at hpend ⊢
      simp [stepCall, fireDue, debounceBody, hpend, hnotdue]

/-- C5 witness: a reachable state has at most one pending write for key 1,
and a repeat call for key 1 at t = 50 against a timer due at 250 replaces the
patch (10 becomes 11) and resets the deadline to 300 without firing. -/
theorem debounce_single_pending_invariant_witness :
    pendingCountFor (runCalls 250 [(0, ((1 : Nat), (10 : Nat))), (50, (2, 20))]) 1 ≤ 1 ∧
      stepCall 250 (⟨some (250, (1, 10)), []⟩ : DebounceState (Nat × Nat)) (50, (1, 11)) =
        ⟨some (300, (1, 11)), []⟩ :=
  ⟨(debounce_single_pending_invariant 250).1 _ 1,
    (debounce_single_pending_invariant 250).2 ⟨some (250, (1, 10)), []⟩ 50 250 1 10 11
      rfl (by decide)⟩

/-- Debounce closure state instrumented with the outcome of the underlying
write `w : α → Except ε Unit`: successful flushes append to `okWrites`,
failing flushes append to the `failures` log (the injected failure
observer); nothing is ever handed back to a caller of the debounced
function. -/
structure DebounceRunState (α ε : Type) where
  pending : Option (Nat × α)
  okWrites : List α
  failures : List (α × ε)
deriving Repr

/-- Run the `setTimeout` callback `() => fn.apply(this, args)` for captured
args `a`: the write `w` executes; success is logged to `okWrites`, a
rejection or error to the failure log. -/
def flushWrite {α ε : Type} (w : α → Except ε Unit) (a : α)
    (s : DebounceRunState α ε) : DebounceRunState α ε :=
  match w a with
  | Except.ok _ => ⟨none, s.okWrites ++ [a], s.failures⟩
  | Except.error e => ⟨none, s.okWrites, s.failures ++ [(a, e)]⟩

/-- Time passes to `t`: a due timer runs the `setTimeout` callback, which
invokes `w`; a rejection or error lands in the failure log. -/
def fireDueE {α ε : Type} (w : α → Except ε Unit) (s : DebounceRunState α ε)
    (t : Nat) : DebounceRunState α ε :=
  match s.pending with
  | some (d, a) => if d ≤ t then flushWrite w a s else s
  | none => s

/-- One external call event: due timers run first, then the debounced body,
which only clears and re-arms the timer and returns normally (`undefined` in
the source) — it never invokes `w`, so the value handed back to the caller is
always `Except.ok ()`, whatever `w` does later. -/
def stepCallE {α ε : Type} (w : α → Except ε Unit) (ms : Nat)
    (s : DebounceRunState α ε) (c : Nat × α) : DebounceRunState α ε × Except ε Unit :=
  let s1 := fireDueE w s c.1
  (⟨some (c.1 + ms, c.2), s1.okWrites, s1.failures⟩, Except.ok ())

/-- Run a timed call trace, collecting the value returned to the caller at
each call. -/
def runCallsE {α ε : Type} (w : α → Except ε Unit) (ms : Nat)
    (calls : List (Nat × α)) : DebounceRunState α ε × List (Except ε Unit) :=
  calls.foldl
    (fun acc c =>
      let r := stepCallE w ms acc.1 c
      (r.1, acc.2 ++ [r.2]))
    (⟨none, [], []⟩, [])

/-- After the last event, remaining time passes and a still-pending timer
fires. -/
def finalFireE {α ε : Type} (w : α → Except ε Unit) (s : DebounceRunState α ε) :
    DebounceRunState α ε :=
  match s.pending with
  | some (_, a) => flushWrite w a s
  | none => s

theorem flushWrite_failures_sound {α ε : Type} (w : α → Except ε Unit) (a : α)
    (s : DebounceRunState α ε)
    (h : ∀ pe ∈ s.failures, w pe.1 = Except.error pe.2) :
    ∀ pe ∈ (flushWrite w a s).failures, w pe.1 = Except.error pe.2 := by
  cases hw : w a with
  | ok u =>
    simpa [flushWrite, hw] using h
  | error e =>
    intro pe hpe
    simp only [flushWrite, hw] at hpe
    rcases List.mem_append.mp hpe with hold | hnew
    · exact h pe hold
    · have hpee : pe = (a, e) := by simpa using hnew
      rw [hpee]
      exact hw

theorem fireDueE_failures_sound {α ε : Type} (w : α → Except ε Unit)
    (s : DebounceRunState α ε) (t : Nat)
    (h : ∀ pe ∈ s.failures, w pe.1 = Except.error pe.2) :
    ∀ pe ∈ (fireDueE w s t).failures, w pe.1 = Except.error pe.2 := by
  rcases hp : s.pending with _ | ⟨d, a⟩
  · simpa [fireDueE, hp] using h
  · by_cases hdt : d ≤ t
    · have hfd : fireDueE w s t = flushWrite w a s := by
        simp [fireDueE, hp, hdt]
      rw [hfd]
      exact flushWrite_failures_sound w a s h
    · simpa [fireDueE, hp, hdt] using h

theorem finalFireE_failures_sound {α ε : Type} (w : α → Except ε Unit)
    (s : DebounceRunState α ε)
    (h : ∀ pe ∈ s.failures, w pe.1 = Except.error pe.2) :
    ∀ pe ∈ (finalFireE w s).failures, w pe.1 = Except.error pe.2 := by
  rcases hp : s.pending with _ | ⟨d, a⟩
  · simpa [finalFireE, hp] using h
  · have hfd : finalFireE w s = flushWrite w a s := by
      simp [finalFireE, hp]
    rw [hfd]
    exact flushWrite_failures_sound w a s h

theorem runCallsE_results {α ε : Type} (w : α → Except ε Unit) (ms : Nat) :
    ∀ (calls : List (Nat × α)) (s : DebounceRunState α ε) (rs : List (Except ε Unit)),
      (calls.foldl
        (fun acc c =>
          let r := stepCallE w ms acc.1 c
          (r.1, acc.2 ++ [r.2]))
        (s, rs)).2 = rs ++ List.replicate calls.length (Except.ok ()) := by
  intro calls
  induction calls with
  | nil => intro s rs; simp
  | cons c tl ih =>
    intro s rs
    simp only [List.foldl_cons, List.length_cons]
    rw [ih]
    simp [stepCallE, List.replicate_succ]

theorem runCallsE_failures_sound {α ε : Type} (w : α → Except ε Unit) (ms : Nat) :
    ∀ (calls : List (Nat × α)) (s : DebounceRunState α ε) (rs : List (Except ε Unit)),
      (∀ pe ∈ s.failures, w pe.1 = Except.error pe.2) →
      ∀ pe ∈ (calls.foldl
          (fun acc c =>
            let r := stepCallE w ms acc.1 c
            (r.1, acc.2 ++ [r.2]))
          (s, rs)).1.failures, w pe.1 = Except.error pe.2 := by
  intro calls
  induction calls with
  | nil => intro s rs h; exact h
  | cons c tl ih =>
    intro s rs h
    simp only [List.foldl_cons]
    exact ih _ _ (fireDueE_failures_sound w s c.1 h)

/-- C7: a call to the debounce-wrapped function always returns normally —
the value handed back to the caller is `Except.ok ()` for every call of every
trace, whatever the underlying write `w` does — and every entry of the
failure log is a genuine failure of `w`: a rejection of the eventual write is
never propagated back through the debounce boundary, only recorded. -/
theorem debounce_calls_never_fail {α ε : Type} (w : α → Except ε Unit) (ms : Nat)
    (calls : List (Nat × α)) :
    (runCallsE w ms calls).2 = List.replicate calls.length (Except.ok ()) ∧
      ∀ pe ∈ (finalFireE w (runCallsE w ms calls).1).failures,
        w pe.1 = Except.error pe.2 := by
  constructor
  · have h := runCallsE_results w ms calls ⟨none, [], []⟩ []
    simpa [runCallsE] using h
  · exact finalFireE_failures_sound w _
      (runCallsE_failures_sound w ms calls ⟨none, [], []⟩ [] (by intro pe hpe; simp at hpe))

/-- C7 witness: with a write that always fails, two calls both return
`Except.ok ()` to their caller, and the failure of the flushed write for
args 2 is visible only as a log entry, whose recorded error matches `w`. -/
theorem debounce_calls_never_fail_witness :
    (runCallsE (fun _ : Nat => (Except.error (0 : Nat) : Except Nat Unit)) 250
        [(0, 1), (50, 2)]).2 = [Except.ok (), Except.ok ()] ∧
      (fun _ : Nat => (Except.error (0 : Nat) : Except Nat Unit)) 2 = Except.error 0 := by
  constructor
  · have h := (debounce_calls_never_fail
      (fun _ : Nat => (Except.error (0 : Nat) : Except Nat Unit)) 250 [(0, 1), (50, 2)]).1
    simpa using h
  · exact (debounce_calls_never_fail
      (fun _ : Nat => (Except.error (0 : Nat) : Except Nat Unit)) 250 [(0, 1), (50, 2)]).2
      ((2 : Nat), (0 : Nat)) (by decide)

/-! ## The bond page (`pages/bond.tsx`)

An in-memory record of the `bondLogs` list (`useListState`): a stable `id`
(the record identity) and a bag of independently editable fields, indexed by
field number. -/

structure Rec where
  id : Nat
  fields : Nat → Int

/-- `bondLogs.indexOf(log)` (line 137): index of the record in the list,
`-1` when absent.  List membership of the same record object is rendered as
matching on the stable identity. -/
def findIdxOfId : List Rec → Nat → Option Nat
  | [], _ => none
  | r :: rest, i => if r.id = i then some 0 else (findIdxOfId rest i).map (· + 1)

def indexOfId (l : List Rec) (i : Nat) : Int :=
  match findIdxOfId l i with
  | some n => (n : Int)
  | none => -1

/-- Update the fields of the element at position `n`, leaving the rest of
the list unchanged. -/
def setFieldAt : List Rec → Nat → Nat → Int → List Rec
  | [], _, _, _ => []
  | r :: rest, 0, prop, v => { r with fields := Function.update r.fields prop v } :: rest
  | r :: rest, n + 1, prop, v => r :: setFieldAt rest n prop v

/-- Mantine `setItemProp(index, prop, value)` as called on line 138 with the
result of `indexOf`: a valid index updates that element's field in place; the
sentinel `-1` (record absent) changes no element of the list. -/
def setItemProp (l : List Rec) (idx : Int) (prop : Nat) (v : Int) : List Rec :=
  if idx < 0 then l else setFieldAt l idx.toNat prop v

/-- Combined state of the bond page: the in-memory `bondLogs` list, the
debounce closure state of `saveBondLog` (deadline and pending
(id, field, value) patch), the patches that have flushed to the persisted
store, and the `bondRepo.remove` calls issued. -/
structure PageState where
  logs : List Rec
  dpending : Option (Nat × (Nat × Nat × Int))
  writes : List (Nat × Nat × Int)
  removedIds : List Nat

/-- Time passes up to instant `t`: a due debounced save flushes its pending
patch to the persisted store before anything queued at `t` runs. -/
def fireDueP (s : PageState) (t : Nat) : PageState :=
  match s.dpending with
  | some (d, p) =>
    if d ≤ t then { s with dpending := none, writes := s.writes ++ [p] } else s
  | none => s

/-- The synchronous body of `dataTableConfig.edit` (lines 136–140, same
shape as `onBondConfigEdit`, lines 88–99): look the record up by identity,
update the in-memory list at that index, then call
`saveBondLog(log, {prop: value})`.

Modelled from the spec: `useDebouncedListSave` (imported from `~/services`,
not part of the excerpt) wraps the repository update in `debounce` from
`src/util.ts` — per §9 the source pattern is "a closure capturing a single
mutable timer variable" — so the call clears the one pending timer and
re-arms it at `t + ms` with the new (id, field, value) patch. -/
def editAct (ms : Nat) (s : PageState) (t : Nat) (r : Rec) (prop : Nat) (v : Int) :
    PageState :=
  { s with
    logs := setItemProp s.logs (indexOfId s.logs r.id) prop v,
    dpending := some (t + ms, (r.id, prop, v)) }

/-- The synchronous body of `dataTableConfig.remove` (lines 141–144):
`bondLogsHandler.filter((l) => l.id !== log.id)` then `bondRepo.remove(log)`.
It touches neither the debounce closure nor its pending patch (the debounced
function returned by `debounce` exposes no cancellation handle). -/
def removeAct (s : PageState) (r : Rec) : PageState :=
  { s with
    logs := s.logs.filter (fun l => l.id ≠ r.id),
    removedIds := s.removedIds ++ [r.id] }

/-- An edit event at time `t`: due timers run first, then the handler. -/
def editStep (ms : Nat) (s : PageState) (t : Nat) (r : Rec) (prop : Nat) (v : Int) :
    PageState :=
  editAct ms (fireDueP s t) t r prop v

/-- A remove event at time `t`: due timers run first, then the handler. -/
def removeStep (s : PageState) (t : Nat) (r : Rec) : PageState :=
  removeAct (fireDueP s t) r

/-- After the last event, remaining time passes: a still-pending debounced
save flushes to the persisted store. -/
def finishP (s : PageState) : PageState :=
  match s.dpending with
  | some (_, p) => { s with dpending := none, writes := s.writes ++ [p] }
  | none => s

theorem findIdxOfId_none_of_not_mem (i : Nat) :
    ∀ l : List Rec, i ∉ l.map Rec.id → findIdxOfId l i = none := by
  intro l
  induction l with
  | nil => intro _; rfl
  | cons r rest ih =>
    intro hmem
    have hne : r.id ≠ i := by
      intro heq
      exact hmem (by simp [heq])
    have hrest : i ∉ rest.map Rec.id := by
      intro hmemr
      exact hmem (by simp [hmemr])
    simp [findIdxOfId, hne, ih hrest]

theorem not_mem_of_findIdxOfId_none (i : Nat) :
    ∀ l : List Rec, findIdxOfId l i = none → i ∉ l.map Rec.id := by
  intro l
  induction l with
  | nil => intro _; simp
  | cons r rest ih =>
    intro h
    by_cases hid : r.id = i
    · simp [findIdxOfId, hid] at h
    · simp only [findIdxOfId, hid, if_false, Option.map_eq_none'] at h
      simp only [List.map_cons, List.mem_cons]
      rintro (heq | hmem)
      · exact hid heq.symm
      · exact ih h hmem

theorem findIdxOfId_some_found (i : Nat) :
    ∀ (l : List Rec) (n : Nat), findIdxOfId l i = some n →
      n < l.length ∧ ∀ prop v, ∃ q ∈ setFieldAt l n prop v,
        q.id = i ∧ q.fields prop = v := by
  intro l
  induction l with
  | nil => intro n h; simp [findIdxOfId] at h
  | cons r rest ih =>
    intro n h
    by_cases hid : r.id = i
    · have hn : n = 0 := by
        simp [findIdxOfId, hid] at h
        omega
      subst hn
      refine ⟨by simp, ?_⟩
      intro prop v
      refine ⟨{ r with fields := Function.update r.fields prop v }, by simp [setFieldAt], ?_⟩
      constructor
      · exact hid
      · simp [Function.update]
    · simp only [findIdxOfId, hid, if_false] at h
      rcases Option.map_eq_some'.mp h with ⟨m, hm, hmn⟩
      rcases ih m hm with ⟨hlen, hfield⟩
      subst hmn
      refine ⟨by simp; omega, ?_⟩
      intro prop v
      rcases hfield prop v with ⟨q, hqmem, hq⟩
      exact ⟨q, by simp [setFieldAt, hqmem], hq⟩

/-- C6: `edit(record, field, value)` synchronously updates the in-memory
record's field — the list visible when the handler returns already holds
`value` at that record's identity — while the persisted write is only
scheduled (with deadline `t + ms`, strictly in the future) and does not
reach the store within the call. -/
theorem edit_synchronous_then_scheduled (ms : Nat) (s : PageState) (t : Nat)
    (r : Rec) (prop : Nat) (v : Int) (hmem : r.id ∈ s.logs.map Rec.id) :
    (∃ q ∈ (editAct ms s t r prop v).logs, q.id = r.id ∧ q.fields prop = v) ∧
      (editAct ms s t r prop v).writes = s.writes ∧
      (editAct ms s t r prop v).dpending = some (t + ms, (r.id, prop, v)) := by
  refine ⟨?_, rfl, rfl⟩
  rcases hfind : findIdxOfId s.logs r.id with _ | n
  · exact absurd hmem (not_mem_of_findIdxOfId_none r.id s.logs hfind)
  · rcases findIdxOfId_some_found r.id s.logs n hfind with ⟨hlen, hfield⟩
    rcases hfield prop v with ⟨q, hqmem, hq⟩
    refine ⟨q, ?_, hq⟩
    have hidx : indexOfId s.logs r.id = (n : Int) := by
      simp [indexOfId, hfind]
    have hnot : ¬ ((n : Int) < 0) := by omega
    simpa [editAct, setItemProp, hidx, hnot] using hqmem

/-- C6 witness: editing field 7 of the record with identity 1 to 5 updates
the in-memory list synchronously; the store write list is untouched and the
patch is merely pending with deadline 250. -/
theorem edit_synchronous_then_scheduled_witness :
    (∃ q ∈ (editAct 250 ⟨[⟨1, fun _ => 0⟩], none, [], []⟩ 0 ⟨1, fun _ => 0⟩ 7 5).logs,
        q.id = 1 ∧ q.fields 7 = 5) ∧
      (editAct 250 ⟨[⟨1, fun _ => 0⟩], none, [], []⟩ 0 ⟨1, fun _ => 0⟩ 7 5).writes = [] ∧
      (editAct 250 ⟨[⟨1, fun _ => 0⟩], none, [], []⟩ 0 ⟨1, fun _ => 0⟩ 7 5).dpending =
        some (250, (1, 7, 5)) :=
  edit_synchronous_then_scheduled 250 ⟨[⟨1, fun _ => 0⟩], none, [], []⟩ 0
    ⟨1, fun _ => 0⟩ 7 5 (by simp)

/-- C3: the code violates the cancellation contract.  Failing input: a bond
log with identity 1 is edited at t = 0 (scheduling a debounced save, window
250ms) and removed at t = 100, before the save flushes.  `remove` (lines
141–144) only filters the in-memory list and deletes from the repository; it
never touches the debounce timer (which offers no cancellation handle), so at
t = 250 the stale patch (1, 7, 5) still reaches the persisted store — after
the removal — resurrecting the deleted record.  This theorem evaluates the
code on that input: after the remove, no write has flushed and identity 1 is
recorded removed, yet once the window elapses the write list holds the stale
patch, while the in-memory list is empty. -/
theorem remove_pending_write_resurrects :
    (removeStep (editStep 250 ⟨[⟨1, fun _ => 0⟩], none, [], []⟩ 0 ⟨1, fun _ => 0⟩ 7 5)
        100 ⟨1, fun _ => 0⟩).writes = [] ∧
      (removeStep (editStep 250 ⟨[⟨1, fun _ => 0⟩], none, [], []⟩ 0 ⟨1, fun _ => 0⟩ 7 5)
        100 ⟨1, fun _ => 0⟩).removedIds = [1] ∧
      (finishP (removeStep (editStep 250 ⟨[⟨1, fun _ => 0⟩], none, [], []⟩ 0
        ⟨1, fun _ => 0⟩ 7 5) 100 ⟨1, fun _ => 0⟩)).writes = [(1, 7, 5)] ∧
      (finishP (removeStep (editStep 250 ⟨[⟨1, fun _ => 0⟩], none, [], []⟩ 0
        ⟨1, fun _ => 0⟩ 7 5) 100 ⟨1, fun _ => 0⟩)).logs = [] :=
  ⟨rfl, rfl, rfl, rfl⟩

/-- C8 counterexample: with only the record of identity 1 in memory,
removing a record of identity 2 leaves the collection exactly as it was and
signals nothing — the handlers have no NotFound path at all — and editing
identity 2 likewise changes no element yet still schedules a debounced write
for the unknown identity. -/
theorem unknown_identity_silent_noop_cex :
    (removeAct ⟨[⟨1, fun _ => 0⟩], none, [], []⟩ ⟨2, fun _ => 0⟩).logs =
        [⟨1, fun _ => 0⟩] ∧
      (editAct 250 ⟨[⟨1, fun _ => 0⟩], none, [], []⟩ 0 ⟨2, fun _ => 0⟩ 7 5).logs =
        [⟨1, fun _ => 0⟩] ∧
      (editAct 250 ⟨[⟨1, fun _ => 0⟩], none, [], []⟩ 0 ⟨2, fun _ => 0⟩ 7 5).dpending =
        some (250, (2, 7, 5)) :=
  ⟨rfl, rfl, rfl⟩

/-- C8 amended: an `edit` or `remove` whose record identity is not in the
in-memory collection raises no NotFound condition and silently no-ops on the
collection: `remove`'s filter drops nothing, `edit`'s `indexOf` yields `-1`
and the index update changes no element — though `edit` still schedules the
debounced write for the unknown identity. -/
theorem unknown_identity_noop (ms : Nat) (s : PageState) (t : Nat) (r : Rec)
    (prop : Nat) (v : Int) (hmem : r.id ∉ s.logs.map Rec.id) :
    (removeAct s r).logs = s.logs ∧
      (editAct ms s t r prop v).logs = s.logs ∧
      (editAct ms s t r prop v).dpending = some (t + ms, (r.id, prop, v)) := by
  refine ⟨?_, ?_, rfl⟩
  · show s.logs.filter (fun l => l.id ≠ r.id) = s.logs
    apply List.filter_eq_self.mpr
    intro a ha
    have : a.id ≠ r.id := by
      intro heq
      exact hmem (heq ▸ List.mem_map_of_mem Rec.id ha)
    simpa using this
  · have hfind : findIdxOfId s.logs r.id = none :=
      findIdxOfId_none_of_not_mem r.id s.logs hmem
    show setItemProp s.logs (indexOfId s.logs r.id) prop v = s.logs
    simp [indexOfId, hfind, setItemProp]

/-- C8 amended witness: identity 4 is not in the collection `[record 3]`;
remove and edit both leave the collection untouched, and edit still schedules
the write (4, 8, 6) with deadline 310. -/
theorem unknown_identity_noop_witness :
    (removeAct ⟨[⟨3, fun _ => 0⟩], none, [], []⟩ ⟨4, fun _ => 0⟩).logs =
        [⟨3, fun _ => 0⟩] ∧
      (editAct 300 ⟨[⟨3, fun _ => 0⟩], none, [], []⟩ 10 ⟨4, fun _ => 0⟩ 8 6).logs =
        [⟨3, fun _ => 0⟩] ∧
      (editAct 300 ⟨[⟨3, fun _ => 0⟩], none, [], []⟩ 10 ⟨4, fun _ => 0⟩ 8 6).dpending =
        some (310, (4, 8, 6)) :=
  unknown_identity_noop 300 ⟨[⟨3, fun _ => 0⟩], none, [], []⟩ 10 ⟨4, fun _ => 0⟩ 8 6
    (by simp)

/-! ## `findLastIndex` (`src/util.ts` lines 36–46)

  for (let i = array.length - 1; i > 0; i--) {
    if (predicate(array[i], i, array)) return i;
  }
  return -1;

The loop guard is `i > 0`, so index 0 is never examined.  The predicate's
third argument (the whole array) is constant over the loop and folded into
`p`. -/

def findLastIndexGo {α : Type} [Inhabited α] (arr : List α) (p : α → Nat → Bool) :
    Nat → Int
  | 0 => -1
  | i + 1 =>
    if p (arr.getD (i + 1) default) (i + 1) then ((i + 1 : Nat) : Int)
    else findLastIndexGo arr p i

def findLastIndex {α : Type} [Inhabited α] (arr : List α) (p : α → Nat → Bool) : Int :=
  findLastIndexGo arr p (arr.length - 1)

theorem findLastIndexGo_none {α : Type} [Inhabited α] (arr : List α)
    (p : α → Nat → Bool) :
    ∀ n, (∀ i, 0 < i → i ≤ n → p (arr.getD i default) i = false) →
      findLastIndexGo arr p n = -1 := by
  intro n
  induction n with
  | zero => intro _; rfl
  | succ m ih =>
    intro h
    have hfalse : p (arr.getD (m + 1) default) (m + 1) = false :=
      h (m + 1) (by omega) (by omega)
    simp only [findLastIndexGo, hfalse, if_false]
    exact ih fun i h1 h2 => h i h1 (by omega)

theorem findLastIndexGo_finds {α : Type} [Inhabited α] (arr : List α)
    (p : α → Nat → Bool) :
    ∀ n m, 0 < m → m ≤ n → p (arr.getD m default) m = true →
      (∀ j, m < j → j ≤ n → p (arr.getD j default) j = false) →
      findLastIndexGo arr p n = (m : Int) := by
  intro n
  induction n with
  | zero => intro m h1 h2; omega
  | succ k ih =>
    intro m h1 h2 htrue hmax
    by_cases hm : m = k + 1
    · subst hm
      simp only [findLastIndexGo, htrue, if_true]
    · have hlt : m ≤ k := by omega
      have hfalse : p (arr.getD (k + 1) default) (k + 1) = false :=
        hmax (k + 1) (by omega) (by omega)
      simp only [findLastIndexGo, hfalse, if_false]
      exact ih m h1 hlt htrue fun j hj1 hj2 => hmax j hj1 (by omega)

/-- C9: `findLastIndex` returns the largest index `i ≥ 1` at which the
predicate holds, and `-1` when the predicate holds at no index `i ≥ 1` — in
particular, an array whose only satisfying element sits at index 0 yields
`-1`, because the loop guard `i > 0` never examines index 0. -/
theorem findLastIndex_skips_index_zero {α : Type} [Inhabited α] (arr : List α)
    (p : α → Nat → Bool) :
    ((∀ i, 0 < i → i < arr.length → p (arr.getD i default) i = false) →
        findLastIndex arr p = -1) ∧
      ∀ i, 0 < i → i < arr.length → p (arr.getD i default) i = true →
        (∀ j, i < j → j < arr.length → p (arr.getD j default) j = false) →
        findLastIndex arr p = (i : Int) := by
  constructor
  · intro h
    exact findLastIndexGo_none arr p (arr.length - 1)
      fun i h1 h2 => h i h1 (by omega)
  · intro i h1 h2 htrue hmax
    exact findLastIndexGo_finds arr p (arr.length - 1) i h1 (by omega) htrue
      fun j hj1 hj2 => hmax j hj1 (by omega)

/-- C9 witness: in `[1, 2]` with predicate "equals 1", only index 0
satisfies, and `findLastIndex` answers `-1`; in `[5, 7, 7, 9]` with
predicate "equals 7", the largest satisfying index `≥ 1` is 2, and
`findLastIndex` answers 2. -/
theorem findLastIndex_skips_index_zero_witness :
    findLastIndex [(1 : Nat), 2] (fun a _ => a == 1) = -1 ∧
      findLastIndex [(5 : Nat), 7, 7, 9] (fun a _ => a == 7) = 2 := by
  constructor
  · exact (findLastIndex_skips_index_zero [(1 : Nat), 2] (fun a _ => a == 1)).1
      (by
        intro i hi1 hi2
        simp only [List.length_cons, List.length_nil] at hi2
        have hone : i = 1 := by omega
        subst hone
        rfl)
  · exact (findLastIndex_skips_index_zero [(5 : Nat), 7, 7, 9] (fun a _ => a == 7)).2
      2 (by omega) (by decide) (by decide)
      (by
        intro j hj1 hj2
        simp only [List.length_cons, List.length_nil] at hj2
        have hthree : j = 3 := by omega
        subst hthree
        rfl)

/-! ## `getCircularReplacer` (`src/util.ts` lines 48–58)

  const seen = new WeakSet();
  return (key, value) => {
    if (typeof value === "object" && value !== null) {
      if (seen.has(value)) return;        // undefined: drop the value
      seen.add(value);
    }
    return value;
  };

JavaScript values are embedded shallowly: `null`, primitives, and non-null
objects identified by reference identity (a number).  The `WeakSet` is the
list of identities already seen; returning `undefined` is `none`. -/

inductive JsValue where
  | null
  | prim (n : Int)
  | obj (id : Nat)
deriving DecidableEq, Repr

def isNonNullObject : JsValue → Bool
  | JsValue.obj _ => true
  | _ => false

/-- One call of the replacer closure: threads the `seen` set explicitly. -/
def circularReplacer (seen : List Nat) (v : JsValue) : List Nat × Option JsValue :=
  match v with
  | JsValue.obj i => if i ∈ seen then (seen, none) else (i :: seen, some (JsValue.obj i))
  | v => (seen, some v)

/-- The `seen` set after the replacer has visited a sequence of values. -/
def seenAfter (seen : List Nat) (vs : List JsValue) : List Nat :=
  vs.foldl (fun s v => (circularReplacer s v).1) seen

/-- Outputs of the replacer over a sequence of visited values. -/
def replaceAll (seen : List Nat) : List JsValue → List (Option JsValue)
  | [] => []
  | v :: vs => (circularReplacer seen v).2 :: replaceAll (circularReplacer seen v).1 vs

theorem replaceAll_append (ws : List JsValue) :
    ∀ (vs : List JsValue) (seen : List Nat),
      replaceAll seen (vs ++ ws) = replaceAll seen vs ++ replaceAll (seenAfter seen vs) ws := by
  intro vs
  induction vs with
  | nil => intro seen; rfl
  | cons v tl ih =>
    intro seen
    simp only [List.cons_append, replaceAll, List.append_eq]
    rw [ih]
    rfl

theorem mem_circularReplacer_seen (seen : List Nat) (v : JsValue) (i : Nat)
    (h : i ∈ seen) : i ∈ (circularReplacer seen v).1 := by
  cases v with
  | obj j =>
    by_cases hj : j ∈ seen
    · simpa [circularReplacer, hj] using h
    · simp [circularReplacer, hj]
      right
      exact h
  | null => exact h
  | prim n => exact h

theorem self_mem_circularReplacer_seen (seen : List Nat) (i : Nat) :
    i ∈ (circularReplacer seen (JsValue.obj i)).1 := by
  by_cases hi : i ∈ seen
  · simp [circularReplacer, hi]
  · simp [circularReplacer, hi]

theorem mem_seenAfter (i : Nat) :
    ∀ (vs : List JsValue) (seen : List Nat),
      (i ∈ seen ∨ JsValue.obj i ∈ vs) → i ∈ seenAfter seen vs := by
  intro vs
  induction vs with
  | nil =>
    intro seen h
    rcases h with h | h
    · exact h
    · simp at h
  | cons v tl ih =>
    intro seen h
    show i ∈ seenAfter (circularReplacer seen v).1 tl
    rcases h with h | h
    · exact ih _ (Or.inl (mem_circularReplacer_seen seen v i h))
    · rcases List.mem_cons.mp h with heq | hmem
      · subst heq
        exact ih _ (Or.inl (self_mem_circularReplacer_seen seen i))
      · exact ih _ (Or.inr hmem)

/-- C10: the replacer returned by `getCircularReplacer` is the identity on
every value that is not a non-null object, passes a non-null object through
unchanged on its first occurrence (recording it as seen), and returns
`undefined` on every later occurrence of the same object — so every repeated
(shared) object reference is dropped, not only those forming a cycle. -/
theorem circularReplacer_drops_repeats :
    (∀ (seen : List Nat) (v : JsValue), isNonNullObject v = false →
        circularReplacer seen v = (seen, some v)) ∧
      (∀ (seen : List Nat) (i : Nat), i ∉ seen →
        circularReplacer seen (JsValue.obj i) = (i :: seen, some (JsValue.obj i))) ∧
      (∀ (seen : List Nat) (i : Nat), i ∈ seen →
        circularReplacer seen (JsValue.obj i) = (seen, none)) ∧
      ∀ (vs : List JsValue) (i : Nat), JsValue.obj i ∈ vs →
        replaceAll [] (vs ++ [JsValue.obj i]) = replaceAll [] vs ++ [none] := by
  refine ⟨?_, ?_, ?_, ?_⟩
  · intro seen v hv
    cases v with
    | obj j => simp [isNonNullObject] at hv
    | null => rfl
    | prim n => rfl
  · intro seen i hi
    simp [circularReplacer, hi]
  · intro seen i hi
    simp [circularReplacer, hi]
  · intro vs i hmem
    rw [replaceAll_append]
    have hseen : i ∈ seenAfter [] vs := mem_seenAfter i vs [] (Or.inr hmem)
    simp [replaceAll, circularReplacer, hseen]

/-- C10 witness: a primitive and `null` pass through; object 7 passes on
first sight, is dropped when already seen, and in the sequence
`[obj 7, prim 1, obj 7]` the repeated shared reference (no cycle) maps to
`undefined`. -/
theorem circularReplacer_drops_repeats_witness :
    circularReplacer [] (JsValue.prim 3) = ([], some (JsValue.prim 3)) ∧
      circularReplacer [] (JsValue.obj 7) = ([7], some (JsValue.obj 7)) ∧
      circularReplacer [7] (JsValue.obj 7) = ([7], none) ∧
      replaceAll [] ([JsValue.obj 7, JsValue.prim 1] ++ [JsValue.obj 7]) =
        replaceAll [] [JsValue.obj 7, JsValue.prim 1] ++ [none] :=
  ⟨circularReplacer_drops_repeats.1 [] (JsValue.prim 3) rfl,
    circularReplacer_drops_repeats.2.1 [] 7 (by simp),
    circularReplacer_drops_repeats.2.2.1 [7] 7 (by simp),
    circularReplacer_drops_repeats.2.2.2 [JsValue.obj 7, JsValue.prim 1] 7 (by simp)⟩

end FizzyBubbles
